import Mathlib

/-!
Shallow embedding of the communication/computation overlap scheduler in
torch/_inductor/comms.py, together with theorems settling the spec claims.

Modelling conventions, fixed once for the whole development:

* The scheduler-node class (scheduler.BaseSchedulerNode), the IR node kinds
  (ir.CollectiveKernel / ir.Wait), the cost model (analysis.get_runtime_snode)
  and the fx.Node meta dictionary are external collaborators that are not part
  of the repository excerpt.  Following the spec (sections 3 and 6), a node is
  modelled as a record exposing a stable unique name, a classification
  (compute / communication / wait), its successor set (node_users), its
  predecessor set (inverse_users, also the dependency set the source calls
  comm.args in raise_comms), an estimated cost, and the optional fusion_meta
  entry used by dumb_reordering.  Names are modelled as naturals carrying the
  same total order the source gets from sorting the stable name strings.
* Python set membership is membership by object identity; the spec guarantees
  names are unique and stable, so it is modelled by structural membership of
  node records (all records come from the one input list).
* Costs (floats returned by the external get_runtime_snode) are modelled as
  integers in the cost model's opaque unit.  The only non-linear cost
  operation in the source, the comparison against runtime_cost / 2 at line
  231, is exact under this model: for integers g and c, g ≤ c / 2 with
  floor division holds iff g ≤ c / 2 holds over the reals (see
  int_halving_exact below).
* Python raising an exception is modelled by the
  functions returning an Except value; the exceptions that actually occur in
  this file are the UnboundLocalError in sink_waits (line 33 of the source
  appends the never-assigned local `node`), the AssertionError of the asserts,
  and a marker for the infinite loop in add_all_nodes (whose no-progress
  branch runs breakpoint(); print() and then repeats the while loop with an
  unchanged state, so it never terminates).
* The debug_print helper is gated on an environment toggle (spec section 6
  calls it a no-op unless the toggle is set); it is modelled with the toggle
  unset.  The unconditional effects — the bare breakpoint() the source runs
  after building the indegree map, the breakpoint()/print() pair in the
  no-progress branch, and the final printd(result) — are reported in the
  effect-trace component of reorder_computation_for_overlap's result.
-/

/-- Classification of a scheduler node: local compute, collective
communication (ir.CollectiveKernel), or wait-for-communication (ir.Wait). -/
inductive NodeKind where
  | compute : NodeKind
  | comm : NodeKind
  | wait : NodeKind
deriving DecidableEq, Repr

/-- Exceptions and failure modes of the scheduler functions.
unboundLocal models the UnboundLocalError raised at line 33 of the source
(sink_waits appends the local `node` before it is ever assigned);
assertFail models a failing assert statement; infiniteLoop marks the
non-terminating no-progress loop of add_all_nodes. -/
inductive SchedError where
  | unboundLocal : SchedError
  | assertFail : SchedError
  | infiniteLoop : SchedError
deriving DecidableEq, Repr

deriving instance DecidableEq for Except

/-- Observable side effects of reorder_computation_for_overlap: the bare
breakpoint() call, the bare print() call, and the printd debug sink. -/
inductive Eff where
  | breakpointHit : Eff
  | printHit : Eff
  | printdHit : Eff
deriving DecidableEq, Repr

/-- A scheduler node.  name/kind/users/deps/cost mirror get_name(),
the isinstance classification, node_users, inverse_users (= the dependency
set, spec section 4.4) and get_runtime_snode.  fusionMeta models the optional
"fusion_meta" entry of the meta dictionary, holding the name of the wrapped
scheduler node (dumb_reordering). -/
structure SNode where
  name : Nat
  kind : NodeKind
  users : List Nat
  deps : List Nat
  cost : Int
  fusionMeta : Option Nat
deriving DecidableEq, Repr

/-- Source line 13: sorted(x, key=lambda x: x.get_name()) — deterministic
iteration order over a set of nodes, sorted by stable name. -/
def tuple_sorted (xs : List SNode) : List SNode :=
  List.insertionSort (fun a b => a.name ≤ b.name) xs

/-- Scan loop of sink_waits (source lines 22-35).  Wait nodes are accumulated
into cur_waits; for any non-wait node the loop body reaches
new_result.append(node) at line 33, where the local `node` is still unbound
(it is only ever assigned by the loop at line 34, which runs after the scan),
so the call raises UnboundLocalError and the whole function returns nothing.
Consequently new_result is still empty whenever the final stable-name-sorted
flush of cur_waits at lines 34-35 is reached. -/
def sink_go : List SNode → List SNode → Except SchedError (List SNode)
  | [], curWaits => Except.ok (tuple_sorted curWaits)
  | snode :: rest, curWaits =>
    if snode.kind = NodeKind.wait then sink_go rest (curWaits ++ [snode])
    else Except.error SchedError.unboundLocal

/-- Source lines 17-36: greedily move waits as late as possible.  Because of
the unbound local at line 33 this raises on every input containing a
non-wait node. -/
def sink_waits (result : List SNode) : Except SchedError (List SNode) :=
  sink_go result []

/-- Inner while loop of raise_comms (source lines 50-52): while the current
node is a dependency of any pending comm, pop the frontmost pending comm and
append it to new_result.  Returns (remaining pending comms, flushed comms in
pop order). -/
def raise_flush (snode : SNode) (acc : List SNode) : List SNode → List SNode × List SNode
  | [] => ([], acc)
  | c :: cs =>
    if (c :: cs).any (fun comm => comm.deps.contains snode.name) then
      raise_flush snode (acc ++ [c]) cs
    else (c :: cs, acc)

/-- Reverse scan of raise_comms (source lines 46-53), carried out over the
already-reversed input list.  Returns (new_result, cur_comms). -/
def raise_scan : List SNode → List SNode → List SNode → List SNode × List SNode
  | [], newResult, curComms => (newResult, curComms)
  | snode :: rest, newResult, curComms =>
    if snode.kind = NodeKind.comm then raise_scan rest newResult (curComms ++ [snode])
    else
      let p := raise_flush snode [] curComms
      raise_scan rest (newResult ++ p.2 ++ [snode]) p.1

/-- Source lines 39-58: greedily move comms as early as possible.  The assert
at line 54 (at most one comm left pending after the reverse scan) is modelled
by the error branch. -/
def raise_comms (result : List SNode) : Except SchedError (List SNode) :=
  let p := raise_scan result.reverse [] []
  if p.2.length ≤ 1 then Except.ok ((p.1 ++ tuple_sorted p.2).reverse)
  else Except.error SchedError.assertFail

/-- Predecessor nodes of n inside graph G (the objects node.inverse_users
iterates over). -/
def depNodes (G : List SNode) (n : SNode) : List SNode :=
  G.filter (fun m => n.deps.contains m.name)

/-- Successor nodes of n inside graph G (the objects node.node_users
iterates over). -/
def userNodes (G : List SNode) (n : SNode) : List SNode :=
  G.filter (fun m => n.users.contains m.name)

/-- One node's step of a BFS round (source lines 66-70 / 80-84): every
unvisited neighbour is added to the visited set and to new_nodes.  State is
(visited, new_nodes). -/
def bfs_scan (adj : SNode → List SNode) (node : SNode) (st : List SNode × List SNode) :
    List SNode × List SNode :=
  (adj node).foldl
    (fun st inp => if inp ∈ st.1 then st else (st.1 ++ [inp], st.2 ++ [inp])) st

/-- The while loop of get_ancestors/get_descendants (source lines 64-71 /
78-85).  Each productive round grows the visited set by at least one node of
G, so fuel = G.length + 1 is never exhausted on the inputs the source sees;
the fuel-0 branch just returns the visited set. -/
def bfs_loop (adj : SNode → List SNode) : Nat → List SNode → List SNode → List SNode
  | 0, visited, _ => visited
  | _ + 1, visited, [] => visited
  | fuel + 1, visited, cur =>
    let st := cur.foldl (fun st node => bfs_scan adj node st) (visited, [])
    bfs_loop adj fuel st.1 st.2

/-- Source lines 61-72: the set of transitive predecessors of node
(excluding node itself unless it lies on a dependency cycle). -/
def get_ancestors (G : List SNode) (node : SNode) : List SNode :=
  bfs_loop (depNodes G) (G.length + 1) [] [node]

/-- Source lines 75-86: the set of transitive successors of node. -/
def get_descendants (G : List SNode) (node : SNode) : List SNode :=
  bfs_loop (userNodes G) (G.length + 1) [] [node]

/-- Boolean form of the isinstance(snode.node, ir.CollectiveKernel) test. -/
def isComm (n : SNode) : Bool :=
  decide (n.kind = NodeKind.comm)

/-- Source lines 89-96: add a synthetic ordering dependency from each
communication node to the previous communication node in input order.
Modelled from the spec (section 4.1 and section 3): the scheduler-node class
with add_mutation_dep is not part of the excerpt; adding the WeakDep makes
comm i-1 a predecessor of comm i, i.e. it inserts the edge into both the
dependency view (deps) and the successor view (users) of the shared graph. -/
def decide_global_ordering_comms (G : List SNode) : List SNode :=
  let comms := G.filter isComm
  let pairs := comms.zip comms.tail
  G.map (fun n =>
    let extraDeps := (pairs.filter (fun p => p.2.name = n.name)).map (fun p => p.1.name)
    let extraUsers := (pairs.filter (fun p => p.1.name = n.name)).map (fun p => p.2.name)
    { n with deps := n.deps ++ extraDeps, users := n.users ++ extraUsers })

/-- Source lines 99-107: drop every node whose meta lacks "fusion_meta", run
sink_waits then raise_comms on the survivors, and return the names of the
wrapped scheduler nodes.  After the filter every node carries fusion_meta, so
the dictionary access node.meta["fusion_meta"].snode is modelled by getD
(the default is unreachable). -/
def dumb_reordering (nodes : List SNode) : Except SchedError (List Nat) :=
  let kept := nodes.filter (fun n => n.fusionMeta.isSome)
  match sink_waits kept with
  | Except.error e => Except.error e
  | Except.ok nodes2 =>
    match raise_comms nodes2 with
    | Except.error e => Except.error e
    | Except.ok nodes3 => Except.ok (nodes3.map (fun n => n.fusionMeta.getD 0))

/-- Mutable scheduling state of reorder_computation_for_overlap: the
indegree map (keyed by node name), the free set (indegree zero, schedulable
now), the unused set (not yet scheduled) and the append-only result. -/
structure SchedSt where
  indeg : Nat → Int
  free : List SNode
  unused : List SNode
  result : List SNode

/-- Pointwise update of the indegree map. -/
def bump (f : Nat → Int) (u : Nat) (v : Int) : Nat → Int :=
  fun s => if s = u then v else f s

/-- Source lines 138-142: indeg starts at zero for every node of snodes and
is incremented once per user edge whose target is itself in snodes. -/
def initIndeg (G : List SNode) : Nat → Int :=
  G.foldl
    (fun f snode =>
      snode.users.foldl
        (fun f user =>
          if G.any (fun m => m.name == user) then bump f user (f user + 1) else f)
        f)
    (fun _ => 0)

/-- State right after source line 147: freshly built indegree map, free set
of indegree-zero nodes, all nodes unused, empty result. -/
def initState (G : List SNode) : SchedSt :=
  { indeg := initIndeg G
    free := G.filter (fun n => initIndeg G n.name == 0)
    unused := G
    result := [] }

/-- Indegree decrement for one user name (body of the loop at source lines
156-160): if the user is a graph node, decrement its indegree and promote it
to the free set when the indegree reaches zero. -/
def dec_user (G : List SNode) (st : SchedSt) (user : Nat) : SchedSt :=
  match G.find? (fun m => m.name == user) with
  | none => st
  | some u =>
    let d := st.indeg user - 1
    let st2 := { st with indeg := bump st.indeg user d }
    if d = 0 then { st2 with free := st2.free ++ [u] } else st2

/-- Loop at source lines 156-160 over all users of the scheduled node. -/
def dec_users (G : List SNode) (st : SchedSt) (node : SNode) : SchedSt :=
  node.users.foldl (dec_user G) st

/-- Source lines 149-160: schedule one node.  The two asserts (node unused,
node free) are modelled by the error branches; on success the node moves from
free/unused to the end of result and its users' indegrees are decremented. -/
def add_node (G : List SNode) (st : SchedSt) (node : SNode) : Except SchedError SchedSt :=
  if node ∈ st.unused then
    if node ∈ st.free then
      Except.ok (dec_users G
        { st with
          free := st.free.erase node
          unused := st.unused.erase node
          result := st.result ++ [node] }
        node)
    else Except.error SchedError.assertFail
  else Except.error SchedError.assertFail

/-- One full pass of the inner for loop of add_all_nodes (source lines
170-174) over the name-sorted pending nodes: every currently-free node is
scheduled and removed; the Bool records whether any progress was made. -/
def add_pass (G : List SNode) : SchedSt → List SNode →
    Except SchedError (SchedSt × List SNode × Bool)
  | st, [] => Except.ok (st, [], false)
  | st, n :: rest =>
    if n ∈ st.free then
      match add_node G st n with
      | Except.error e => Except.error e
      | Except.ok st2 =>
        match add_pass G st2 rest with
        | Except.error e => Except.error e
        | Except.ok (st3, rem, _) => Except.ok (st3, rem, true)
    else
      match add_pass G st rest with
      | Except.error e => Except.error e
      | Except.ok (st3, rem, p) => Except.ok (st3, n :: rem, p)

/-- The while loop of add_all_nodes (source lines 168-177).  When a full pass
makes no progress the source runs breakpoint() and print() and then repeats
the while loop with a completely unchanged state, i.e. it loops forever; that
divergence is modelled by the infiniteLoop error.  Every progressing pass
removes at least one pending node, so fuel = (number of pending nodes) never
runs out; the fuel-0 branch only exists to make the recursion structural. -/
def add_all_loop (G : List SNode) : Nat → SchedSt → List SNode → Except SchedError SchedSt
  | _, st, [] => Except.ok st
  | 0, _, _ :: _ => Except.error SchedError.infiniteLoop
  | fuel + 1, st, allNodes =>
    match add_pass G st (tuple_sorted allNodes) with
    | Except.error e => Except.error e
    | Except.ok (st2, rem, progress) =>
      if progress then add_all_loop G fuel st2 rem
      else Except.error SchedError.infiniteLoop

/-- Source lines 162-177: schedule all of snodes in an arbitrary
topologically valid order.  all_nodes = set(snodes) is the deduplicated
batch; the assert at line 167 requires every batch node to be unused. -/
def add_all_nodes (G : List SNode) (st : SchedSt) (batch : List SNode) :
    Except SchedError SchedSt :=
  let allNodes := batch.dedup
  if allNodes.all (fun n => decide (n ∈ st.unused)) then
    add_all_loop G allNodes.length st allNodes
  else Except.error SchedError.assertFail

/-- The Priority 2 for loop (source lines 221-234): stop as soon as the
accumulated cost reaches the previous comm's cost; silently pass over
communication candidates; skip a candidate when the remaining gap
comm_cost - total_cost is at most half the candidate's runtime cost
(source line 231); otherwise schedule it and add its cost. -/
def p2_loop (G : List SNode) (commCost : Int) : SchedSt → Int → List SNode →
    Except SchedError (SchedSt × Int)
  | st, totalCost, [] => Except.ok (st, totalCost)
  | st, totalCost, snode :: rest =>
    if commCost ≤ totalCost then Except.ok (st, totalCost)
    else if snode.kind = NodeKind.comm then p2_loop G commCost st totalCost rest
    else if commCost - totalCost ≤ snode.cost / 2 then p2_loop G commCost st totalCost rest
    else
      match add_node G st snode with
      | Except.error e => Except.error e
      | Except.ok st2 => p2_loop G commCost st2 (totalCost + snode.cost) rest

/-- Source lines 211-215: the index of the first communication node having
this node among its ancestors, or the number of comm nodes when none does. -/
def earliest_comm_descendant (G : List SNode) (comms : List SNode) (node : SNode) : Nat :=
  comms.findIdx (fun c => decide (node ∈ get_ancestors G c))

/-- Main loop of reorder_computation_for_overlap (source lines 181-252),
iterated over consecutive pairs (comm i-1, comm i) with the rolled-over
compute budget threaded through.  Priority 1 schedules the unused ancestors
of comm i that do not depend on comm i-1; Priority 2 greedily fills the
remaining overlap gap from the free non-descendants of comm i-1, preferring
nodes needed by the earliest comm; the rollover survives only when comm i-1
is not blocking comm i; Priority 3 schedules the remaining unused ancestors
of comm i followed by comm i itself. -/
def main_loop (G : List SNode) (comms : List SNode) :
    List (SNode × SNode) → SchedSt → Int → Except SchedError SchedSt
  | [], st, _ => Except.ok st
  | (prev, cur) :: rest, st, rolled =>
    let ancCur := get_ancestors G cur
    let descPrev := get_descendants G prev
    let isBlocking := descPrev.any (fun n => decide (n ∈ ancCur))
    let priority1 := st.unused.filter (fun n => decide (n ∈ ancCur) && !decide (n ∈ descPrev))
    let totalCost := rolled + (priority1.map SNode.cost).sum
    let commCost := prev.cost
    match add_all_nodes G st (tuple_sorted priority1) with
    | Except.error e => Except.error e
    | Except.ok st1 =>
      let p2res :=
        if commCost ≤ totalCost then Except.ok (st1, totalCost)
        else
          let ov1 := tuple_sorted (st1.free.filter (fun n => !decide (n ∈ descPrev)))
          let ov2 := List.insertionSort (fun a b =>
            earliest_comm_descendant G comms a ≤ earliest_comm_descendant G comms b) ov1
          p2_loop G commCost st1 totalCost ov2
      match p2res with
      | Except.error e => Except.error e
      | Except.ok (st2, totalCost2) =>
        let rollable := totalCost2 - totalCost
        let rolled2 : Int := if isBlocking then 0 else rollable
        let priority3 := st2.unused.filter (fun n => decide (n ∈ ancCur))
        match add_all_nodes G st2 (priority3 ++ [cur]) with
        | Except.error e => Except.error e
        | Except.ok st3 => main_loop G comms rest st3 rolled2

/-- Body of reorder_computation_for_overlap for a nonempty comm list
(source lines 135-258): schedule the ancestors of the first comm and the
comm itself, run the main loop over consecutive comm pairs with rollover 0,
schedule whatever is still unused, then postprocess with sink_waits and
raise_comms. -/
def reorder_core (G : List SNode) (c0 : SNode) : Except SchedError (List SNode) :=
  let comms := G.filter isComm
  match add_all_nodes G (initState G) (get_ancestors G c0 ++ [c0]) with
  | Except.error e => Except.error e
  | Except.ok st1 =>
    match main_loop G comms (comms.zip comms.tail) st1 0 with
    | Except.error e => Except.error e
    | Except.ok st2 =>
      match add_all_nodes G st2 st2.unused with
      | Except.error e => Except.error e
      | Except.ok st3 =>
        match sink_waits st3.result with
        | Except.error e => Except.error e
        | Except.ok r1 => raise_comms r1

/-- Source lines 116-260.  With no communication node the input is returned
unchanged (lines 132-133) and nothing else runs.  Otherwise the second
component records the unconditional side effects along the taken path: the
bare breakpoint() at line 143 always fires; the no-progress branch of
add_all_nodes additionally fires breakpoint() and print() (lines 176-177)
before the loop repeats forever; a run that reaches line 259 ends with
printd(result), which is not gated on the debug toggle. -/
def reorder_computation_for_overlap (G : List SNode) :
    Except SchedError (List SNode) × List Eff :=
  match G.filter isComm with
  | [] => (Except.ok G, [])
  | c0 :: _ =>
    let res := reorder_core G c0
    (res, Eff.breakpointHit ::
      (match res with
       | Except.error SchedError.infiniteLoop => [Eff.breakpointHit, Eff.printHit]
       | Except.ok _ => [Eff.printdHit]
       | Except.error _ => []))

/-- Exactness of the integer cost model for the halving test of source line
231: comparing an integer gap against half an integer cost with floor
division agrees with the comparison over the reals. -/
theorem int_halving_exact (g c : Int) : g ≤ c / 2 ↔ (g : ℚ) ≤ (c : ℚ) / 2 := by
  constructor
  · intro h
    have h2 : 2 * g ≤ c := by omega
    have : (2 * g : ℚ) ≤ (c : ℚ) := by exact_mod_cast h2
    linarith
  · intro h
    have h2 : (2 * g : ℚ) ≤ (c : ℚ) := by linarith
    have : 2 * g ≤ c := by exact_mod_cast h2
    omega

/-- dec_user never touches the result list. -/
theorem dec_user_result (G : List SNode) (st : SchedSt) (u : Nat) :
    (dec_user G st u).result = st.result := by
  unfold dec_user
  cases h : G.find? (fun m => m.name == u) with
  | none => rfl
  | some v =>
    dsimp only
    split <;> rfl

/-- Folding dec_user over any user list never touches the result list. -/
theorem foldl_dec_user_result (G : List SNode) :
    ∀ (l : List Nat) (st : SchedSt), (l.foldl (dec_user G) st).result = st.result := by
  intro l
  induction l with
  | nil => intro st; rfl
  | cons u rest ih =>
    intro st
    simp only [List.foldl_cons]
    rw [ih, dec_user_result]

/-- dec_users never touches the result list. -/
theorem dec_users_result (G : List SNode) (st : SchedSt) (n : SNode) :
    (dec_users G st n).result = st.result :=
  foldl_dec_user_result G n.users st

/-- A successful add_node appends exactly the scheduled node to the result. -/
theorem add_node_ok_result {G : List SNode} {st : SchedSt} {n : SNode} {st2 : SchedSt}
    (h : add_node G st n = Except.ok st2) : st2.result = st.result ++ [n] := by
  unfold add_node at h
  split at h
  · split at h
    · cases h
      rw [dec_users_result]
    · exact Except.noConfusion h
  · exact Except.noConfusion h

/-- A successful add_node only extends the result list. -/
theorem add_node_ok_sublist {G : List SNode} {st : SchedSt} {n : SNode} {st2 : SchedSt}
    (h : add_node G st n = Except.ok st2) : st.result.Sublist st2.result := by
  rw [add_node_ok_result h]
  exact List.sublist_append_left _ _

/-- One pass of add_all_nodes only extends the result, and every pending node
either survives into the remaining list or has been scheduled into the
result. -/
theorem add_pass_spec {G : List SNode} :
    ∀ {pending : List SNode} {st st2 : SchedSt} {rem : List SNode} {prog : Bool},
      add_pass G st pending = Except.ok (st2, rem, prog) →
      st.result.Sublist st2.result ∧ ∀ n ∈ pending, n ∈ rem ∨ n ∈ st2.result := by
  intro pending
  induction pending with
  | nil =>
    intro st st2 rem prog h
    simp only [add_pass] at h
    cases h
    exact ⟨List.Sublist.refl _, by simp⟩
  | cons n rest ih =>
    intro st st2 rem prog h
    simp only [add_pass] at h
    split at h
    · cases hadd : add_node G st n with
      | error e => rw [hadd] at h; exact Except.noConfusion h
      | ok stA =>
        rw [hadd] at h
        dsimp only at h
        cases hp : add_pass G stA rest with
        | error e => rw [hp] at h; exact Except.noConfusion h
        | ok trip =>
          obtain ⟨stB, remB, pB⟩ := trip
          rw [hp] at h
          cases h
          obtain ⟨ihs, ihm⟩ := ih hp
          have hA := add_node_ok_result hadd
          refine ⟨?_, ?_⟩
          · refine List.Sublist.trans ?_ ihs
            rw [hA]
            exact List.sublist_append_left _ _
          · intro m hm
            rcases List.mem_cons.mp hm with rfl | hm
            · refine Or.inr (ihs.subset ?_)
              rw [hA]
              simp
            · exact ihm m hm
    · cases hp : add_pass G st rest with
      | error e => rw [hp] at h; exact Except.noConfusion h
      | ok trip =>
        obtain ⟨stB, remB, pB⟩ := trip
        rw [hp] at h
        cases h
        obtain ⟨ihs, ihm⟩ := ih hp
        refine ⟨ihs, ?_⟩
        intro m hm
        rcases List.mem_cons.mp hm with rfl | hm
        · exact Or.inl (List.mem_cons_self _ _)
        · rcases ihm m hm with h1 | h1
          · exact Or.inl (List.mem_cons_of_mem _ h1)
          · exact Or.inr h1

/-- A successful add_all_loop only extends the result and ends with every
pending node scheduled into the result. -/
theorem add_all_loop_spec {G : List SNode} :
    ∀ {fuel : Nat} {allNodes : List SNode} {st st2 : SchedSt},
      add_all_loop G fuel st allNodes = Except.ok st2 →
      st.result.Sublist st2.result ∧ ∀ n ∈ allNodes, n ∈ st2.result := by
  intro fuel
  induction fuel with
  | zero =>
    intro allNodes st st2 h
    cases allNodes with
    | nil =>
      simp only [add_all_loop] at h
      cases h
      exact ⟨List.Sublist.refl _, by simp⟩
    | cons a rest =>
      simp only [add_all_loop] at h
      exact Except.noConfusion h
  | succ fuel ih =>
    intro allNodes st st2 h
    cases allNodes with
    | nil =>
      simp only [add_all_loop] at h
      cases h
      exact ⟨List.Sublist.refl _, by simp⟩
    | cons a rest =>
      simp only [add_all_loop] at h
      cases hp : add_pass G st (tuple_sorted (a :: rest)) with
      | error e => rw [hp] at h; exact Except.noConfusion h
      | ok trip =>
        obtain ⟨stA, rem, prog⟩ := trip
        rw [hp] at h
        dsimp only at h
        split at h
        · obtain ⟨ihs, ihm⟩ := ih h
          obtain ⟨hps, hpm⟩ := add_pass_spec hp
          refine ⟨List.Sublist.trans hps ihs, ?_⟩
          intro n hn
          have hn2 : n ∈ tuple_sorted (a :: rest) := by
            unfold tuple_sorted
            exact (List.mem_insertionSort _).mpr hn
          rcases hpm n hn2 with h1 | h1
          · exact ihm n h1
          · exact ihs.subset h1
        · exact Except.noConfusion h

/-- A successful add_all_nodes only extends the result and schedules every
batch node into the result. -/
theorem add_all_nodes_spec {G : List SNode} {st st2 : SchedSt} {batch : List SNode}
    (h : add_all_nodes G st batch = Except.ok st2) :
    st.result.Sublist st2.result ∧ ∀ n ∈ batch, n ∈ st2.result := by
  unfold add_all_nodes at h
  dsimp only at h
  split at h
  · obtain ⟨hs, hm⟩ := add_all_loop_spec h
    refine ⟨hs, ?_⟩
    intro n hn
    exact hm n (List.mem_dedup.mpr hn)
  · exact Except.noConfusion h

/-- The Priority 2 loop only extends the result list. -/
theorem p2_loop_sublist {G : List SNode} {cc : Int} :
    ∀ {pending : List SNode} {st st2 : SchedSt} {tc tc2 : Int},
      p2_loop G cc st tc pending = Except.ok (st2, tc2) →
      st.result.Sublist st2.result := by
  intro pending
  induction pending with
  | nil =>
    intro st st2 tc tc2 h
    simp only [p2_loop] at h
    cases h
    exact List.Sublist.refl _
  | cons n rest ih =>
    intro st st2 tc tc2 h
    simp only [p2_loop] at h
    split at h
    · cases h
      exact List.Sublist.refl _
    · split at h
      · exact ih h
      · split at h
        · exact ih h
        · cases hadd : add_node G st n with
          | error e => rw [hadd] at h; exact Except.noConfusion h
          | ok stA =>
            rw [hadd] at h
            dsimp only at h
            exact List.Sublist.trans (add_node_ok_sublist hadd) (ih h)

/-- Every name in the result of a successful Priority 2 loop either was
already scheduled or belongs to one of the pending candidates. -/
theorem p2_loop_names {G : List SNode} {cc : Int} :
    ∀ {pending : List SNode} {st st2 : SchedSt} {tc tc2 : Int},
      p2_loop G cc st tc pending = Except.ok (st2, tc2) →
      ∀ s, s ∈ st2.result.map SNode.name →
        s ∈ st.result.map SNode.name ∨ ∃ m ∈ pending, m.name = s := by
  intro pending
  induction pending with
  | nil =>
    intro st st2 tc tc2 h s hs
    simp only [p2_loop] at h
    cases h
    exact Or.inl hs
  | cons n rest ih =>
    intro st st2 tc tc2 h s hs
    simp only [p2_loop] at h
    split at h
    · cases h
      exact Or.inl hs
    · split at h
      · rcases ih h s hs with h1 | ⟨m, hm, hmn⟩
        · exact Or.inl h1
        · exact Or.inr ⟨m, List.mem_cons_of_mem _ hm, hmn⟩
      · split at h
        · rcases ih h s hs with h1 | ⟨m, hm, hmn⟩
          · exact Or.inl h1
          · exact Or.inr ⟨m, List.mem_cons_of_mem _ hm, hmn⟩
        · cases hadd : add_node G st n with
          | error e => rw [hadd] at h; exact Except.noConfusion h
          | ok stA =>
            rw [hadd] at h
            dsimp only at h
            rcases ih h s hs with h1 | ⟨m, hm, hmn⟩
            · rw [add_node_ok_result hadd] at h1
              simp only [List.map_append, List.map_cons, List.map_nil,
                List.mem_append, List.mem_cons, List.not_mem_nil, or_false] at h1
              rcases h1 with h1 | h1
              · exact Or.inl h1
              · exact Or.inr ⟨n, List.mem_cons_self _ _, h1.symm⟩
            · exact Or.inr ⟨m, List.mem_cons_of_mem _ hm, hmn⟩

/-- The main comm-pair loop only extends the result list. -/
theorem main_loop_sublist {G : List SNode} {comms : List SNode} :
    ∀ {pairs : List (SNode × SNode)} {st st2 : SchedSt} {rolled : Int},
      main_loop G comms pairs st rolled = Except.ok st2 →
      st.result.Sublist st2.result := by
  intro pairs
  induction pairs with
  | nil =>
    intro st st2 rolled h
    simp only [main_loop] at h
    cases h
    exact List.Sublist.refl _
  | cons pc rest ih =>
    intro st st2 rolled h
    obtain ⟨prev, cur⟩ := pc
    simp only [main_loop] at h
    split at h
    · exact Except.noConfusion h
    · rename_i stA heq1
      have hs1 := (add_all_nodes_spec heq1).1
      split at h
      · exact Except.noConfusion h
      · rename_i stB tc2 heq2
        have hs2 : stA.result.Sublist stB.result := by
          split at heq2
          · cases heq2
            exact List.Sublist.refl _
          · exact p2_loop_sublist heq2
        try dsimp only at h
        split at h
        · exact Except.noConfusion h
        · rename_i st3 heq3
          exact ((hs1.trans hs2).trans (add_all_nodes_spec heq3).1).trans (ih h)

/-- sink_waits raises the UnboundLocalError as soon as its scan meets a
non-wait node, whatever waits are already pending. -/
theorem sink_go_error {x : SNode} (hx : x.kind ≠ NodeKind.wait) :
    ∀ {l : List SNode}, x ∈ l → ∀ acc, sink_go l acc = Except.error SchedError.unboundLocal := by
  intro l
  induction l with
  | nil => intro hmem; exact absurd hmem (List.not_mem_nil _)
  | cons y rest ih =>
    intro hmem acc
    simp only [sink_go]
    split
    · rename_i hy
      rcases List.mem_cons.mp hmem with rfl | hmem2
      · exact absurd hy hx
      · exact ih hmem2 _
    · rfl

/-- A successful sink_waits scan preserves the number of nodes. -/
theorem sink_go_ok_length :
    ∀ {l acc : List SNode} {out : List SNode},
      sink_go l acc = Except.ok out → out.length = l.length + acc.length := by
  intro l
  induction l with
  | nil =>
    intro acc out h
    simp only [sink_go] at h
    cases h
    simp [tuple_sorted, List.length_insertionSort]
  | cons y rest ih =>
    intro acc out h
    simp only [sink_go] at h
    split at h
    · have := ih h
      simp only [List.length_append, List.length_cons, List.length_nil] at this ⊢
      omega
    · exact Except.noConfusion h

/-- When every pending comm has an empty dependency list the flush loop of
raise_comms does nothing. -/
theorem raise_flush_noop {snode : SNode} {acc : List SNode} {l : List SNode}
    (h : ∀ c ∈ l, c.deps = []) : raise_flush snode acc l = (l, acc) := by
  cases l with
  | nil => rfl
  | cons c cs =>
    simp only [raise_flush]
    rw [if_neg]
    simp only [List.any_eq_true, not_exists]
    intro d hd
    obtain ⟨hdm, hdc⟩ := hd
    rw [h d hdm] at hdc
    simp [List.contains] at hdc

/-- The flush loop conserves the total number of pending plus flushed
comms. -/
theorem raise_flush_length {snode : SNode} :
    ∀ {l acc l2 acc2 : List SNode}, raise_flush snode acc l = (l2, acc2) →
      l2.length + acc2.length = l.length + acc.length := by
  intro l
  induction l with
  | nil =>
    intro acc l2 acc2 h
    simp only [raise_flush] at h
    cases h
    simp
  | cons c cs ih =>
    intro acc l2 acc2 h
    simp only [raise_flush] at h
    split at h
    · have := ih h
      simp only [List.length_append, List.length_cons, List.length_nil] at this ⊢
      omega
    · cases h
      rfl

/-- When no node of the scanned list or of the pending queue has any
dependency, no comm is ever flushed: the reverse scan ends with the pending
queue holding every comm node it met, in scan order. -/
theorem raise_scan_pending {l : List SNode} :
    ∀ {nr cc nr2 cc2 : List SNode},
      (∀ n ∈ l, n.deps = []) → (∀ c ∈ cc, c.deps = []) →
      raise_scan l nr cc = (nr2, cc2) →
      cc2 = cc ++ l.filter isComm := by
  induction l with
  | nil =>
    intro nr cc nr2 cc2 _ _ h
    simp only [raise_scan] at h
    cases h
    simp
  | cons y rest ih =>
    intro nr cc nr2 cc2 hl hcc h
    have hy : y.deps = [] := hl y (List.mem_cons_self _ _)
    have hrest : ∀ n ∈ rest, n.deps = [] := fun n hn => hl n (List.mem_cons_of_mem _ hn)
    simp only [raise_scan] at h
    split at h
    · rename_i hyk
      have hcc2 : ∀ c ∈ cc ++ [y], c.deps = [] := by
        intro c hc
        rcases List.mem_append.mp hc with hc | hc
        · exact hcc c hc
        · rw [List.mem_singleton.mp hc]
          exact hy
      have := ih hrest hcc2 h
      subst this
      have hyc : isComm y = true := by simp [isComm, hyk]
      simp [List.filter_cons, hyc, List.append_assoc]
    · rename_i hyk
      rw [raise_flush_noop hcc] at h
      dsimp only at h
      have := ih hrest hcc h
      subst this
      have hyc : isComm y = false := by simp [isComm, hyk]
      simp [List.filter_cons, hyc]

/-- The reverse scan conserves the total node count. -/
theorem raise_scan_length {l : List SNode} :
    ∀ {nr cc nr2 cc2 : List SNode},
      raise_scan l nr cc = (nr2, cc2) →
      nr2.length + cc2.length = l.length + nr.length + cc.length := by
  induction l with
  | nil =>
    intro nr cc nr2 cc2 h
    simp only [raise_scan] at h
    cases h
    simp only [List.length_nil]
    omega
  | cons y rest ih =>
    intro nr cc nr2 cc2 h
    simp only [raise_scan] at h
    split at h
    · have := ih h
      simp only [List.length_append, List.length_cons, List.length_nil] at this ⊢
      omega
    · rcases hf : raise_flush y [] cc with ⟨ccA, flushed⟩
      rw [hf] at h
      dsimp only at h
      have h1 := raise_flush_length hf
      have := ih h
      simp only [List.length_append, List.length_cons, List.length_nil] at this h1 ⊢
      omega

/-- A successful raise_comms preserves the number of nodes. -/
theorem raise_comms_ok_length {xs out : List SNode}
    (h : raise_comms xs = Except.ok out) : out.length = xs.length := by
  unfold raise_comms at h
  rcases hs : raise_scan xs.reverse [] [] with ⟨nr, cc⟩
  rw [hs] at h
  dsimp only at h
  split at h
  · cases h
    have := raise_scan_length hs
    simp only [List.length_reverse, List.length_append, List.length_nil] at this ⊢
    rw [tuple_sorted, List.length_insertionSort]
    omega
  · exact Except.noConfusion h

/-- With at least one communication node in the graph, every run of the main
scheduling body ends in an exception: the schedule necessarily contains the
first communication node, which is not a wait node, so the final sink_waits
pass hits the unbound local of source line 33 (when some earlier step has
not already raised). -/
theorem reorder_core_no_ok {G : List SNode} {c0 : SNode}
    (hkind : c0.kind = NodeKind.comm) :
    ∀ out, reorder_core G c0 ≠ Except.ok out := by
  intro out h
  unfold reorder_core at h
  split at h
  · exact Except.noConfusion h
  · rename_i st1 heq1
    have hc0 : c0 ∈ st1.result :=
      (add_all_nodes_spec heq1).2 c0 (by simp)
    dsimp only at h
    split at h
    · exact Except.noConfusion h
    · rename_i st2 heq2
      have hc0b : c0 ∈ st2.result := (main_loop_sublist heq2).subset hc0
      split at h
      · exact Except.noConfusion h
      · rename_i st3 heq3
        have hc0c : c0 ∈ st3.result := ((add_all_nodes_spec heq3).1).subset hc0b
        have hsink : sink_waits st3.result = Except.error SchedError.unboundLocal := by
          apply sink_go_error _ hc0c
          rw [hkind]
          intro hk
          exact NodeKind.noConfusion hk
        rw [sink_waits] at hsink
        split at h
        · exact Except.noConfusion h
        · rename_i r1 heqs
          rw [sink_waits] at heqs
          rw [hsink] at heqs
          exact Except.noConfusion heqs

/-- The head of the communication-node filter is a communication node
belonging to the graph. -/
theorem comm_head_kind {G : List SNode} {c0 : SNode} {cs : List SNode}
    (h : G.filter isComm = c0 :: cs) : c0.kind = NodeKind.comm := by
  have : c0 ∈ G.filter isComm := by
    rw [h]
    exact List.mem_cons_self _ _
  have := List.of_mem_filter this
  simpa [isComm] using this

/-- Wait node used in the Scenario C instance: its only successor is the
node named 3. -/
def wS : SNode :=
  { name := 1, kind := NodeKind.wait, users := [3], deps := [], cost := 0, fusionMeta := some 11 }

/-- Compute node independent of the wait node. -/
def xS : SNode :=
  { name := 2, kind := NodeKind.compute, users := [], deps := [], cost := 1, fusionMeta := some 12 }

/-- Compute node consuming the wait node. -/
def dS : SNode :=
  { name := 3, kind := NodeKind.compute, users := [], deps := [1], cost := 1, fusionMeta := some 13 }

/-- A single dependency-free communication node. -/
def cSolo : SNode :=
  { name := 1, kind := NodeKind.comm, users := [], deps := [], cost := 1, fusionMeta := none }

/-- First of two dependency-free communication nodes. -/
def cA : SNode :=
  { name := 1, kind := NodeKind.comm, users := [], deps := [], cost := 1, fusionMeta := none }

/-- Second of two dependency-free communication nodes. -/
def cB : SNode :=
  { name := 2, kind := NodeKind.comm, users := [], deps := [], cost := 1, fusionMeta := none }

/-- Compute node on a two-node dependency cycle, also feeding the comm node
named 3. -/
def aCyc : SNode :=
  { name := 1, kind := NodeKind.compute, users := [2, 3], deps := [2], cost := 1, fusionMeta := none }

/-- The other compute node of the dependency cycle. -/
def bCyc : SNode :=
  { name := 2, kind := NodeKind.compute, users := [1], deps := [1], cost := 1, fusionMeta := none }

/-- Communication node whose only ancestor lies on the cycle. -/
def cCyc : SNode :=
  { name := 3, kind := NodeKind.comm, users := [], deps := [1], cost := 1, fusionMeta := none }

/-- Independent compute node with the smaller name. -/
def pA : SNode :=
  { name := 1, kind := NodeKind.compute, users := [], deps := [], cost := 1, fusionMeta := none }

/-- Independent compute node with the larger name. -/
def pB : SNode :=
  { name := 2, kind := NodeKind.compute, users := [], deps := [], cost := 1, fusionMeta := none }

/-- Compute node with a successor edge into the node named 2. -/
def qA : SNode :=
  { name := 1, kind := NodeKind.compute, users := [2], deps := [], cost := 1, fusionMeta := none }

/-- Compute node depending on the node named 1. -/
def qB : SNode :=
  { name := 2, kind := NodeKind.compute, users := [], deps := [1], cost := 1, fusionMeta := none }

/-- Free compute node of cost 1: far too small to close half of a gap of
100, yet the Priority 2 loop schedules it. -/
def tinyNode : SNode :=
  { name := 1, kind := NodeKind.compute, users := [], deps := [], cost := 1, fusionMeta := none }

/-- Free compute node of cost 10 used to witness the corrected Priority 2
rule. -/
def midNode : SNode :=
  { name := 1, kind := NodeKind.compute, users := [], deps := [], cost := 10, fusionMeta := none }

/-- Wait node carrying a fusion_meta entry. -/
def wMeta : SNode :=
  { name := 1, kind := NodeKind.wait, users := [], deps := [], cost := 0, fusionMeta := some 11 }

/-- Node whose meta dictionary lacks fusion_meta. -/
def noMeta : SNode :=
  { name := 2, kind := NodeKind.compute, users := [], deps := [], cost := 1, fusionMeta := none }

/-- C1: the claim says every run of reorder_computation_for_overlap returns
a permutation of its input.  In fact, on any input containing a
communication node — here a single dependency-free comm node — the function
raises UnboundLocalError out of its final sink_waits pass (source line 33
appends the unbound local `node`) and returns no sequence at all. -/
theorem c1_reorder_raises_on_comm_input :
    (reorder_computation_for_overlap [cSolo]).1 = Except.error SchedError.unboundLocal := by
  decide

/-- C2 counterexample: on the two-node input [qB, qA] with the single
dependency edge qA → qB and no communication node, the code returns the
input order unchanged, which puts the edge's source at the larger index, so
the claimed dependency soundness fails as stated. -/
theorem c2_counterexample :
    (reorder_computation_for_overlap [qB, qA]).1 = Except.ok [qB, qA] ∧
    ¬ List.Pairwise (fun x y => x.name ∉ y.users) [qB, qA] := by
  exact ⟨by decide, by decide⟩

/-- C2 amended: provided the input order itself respects every dependency
edge, any sequence reorder_computation_for_overlap actually returns respects
every dependency edge (the code only ever returns on comm-free inputs, where
it returns the input unchanged; with a comm node present it always raises). -/
theorem c2_dep_sound_amended (G : List SNode)
    (hord : List.Pairwise (fun x y => x.name ∉ y.users) G) (out : List SNode)
    (hok : (reorder_computation_for_overlap G).1 = Except.ok out) :
    List.Pairwise (fun x y => x.name ∉ y.users) out := by
  unfold reorder_computation_for_overlap at hok
  split at hok
  · cases hok
    exact hord
  · rename_i c0 cs hc
    dsimp only at hok
    exact absurd hok (reorder_core_no_ok (comm_head_kind hc) out)

/-- C2 witness: a dependency-ordered comm-free input on which the theorem
applies and returns the input, which is dependency sound. -/
theorem c2_dep_sound_witness :
    (List.Pairwise (fun x y => x.name ∉ y.users) [qA, qB] ∧
      (reorder_computation_for_overlap [qA, qB]).1 = Except.ok [qA, qB]) ∧
    List.Pairwise (fun x y => x.name ∉ y.users) [qA, qB] :=
  ⟨⟨by decide, by decide⟩,
    c2_dep_sound_amended [qA, qB] (by decide) [qA, qB] (by decide)⟩

/-- C3: decide_global_ordering_comms does add the synthetic dependency from
the earlier comm node cA to the later comm node cB, but the schedule the
claim speaks about is never produced: reorder_computation_for_overlap raises
UnboundLocalError out of its final sink_waits pass on every input holding a
communication node, so no output order exists to preserve the comm order. -/
theorem c3_pipeline_raises :
    decide_global_ordering_comms [cA, cB] =
      [{ cA with users := [2] }, { cB with deps := [1] }] ∧
    (reorder_computation_for_overlap (decide_global_ordering_comms [cA, cB])).1 =
      Except.error SchedError.unboundLocal := by
  exact ⟨by decide, by decide⟩

/-- C4: the claim (spec Scenario C) says sink_waits on [WAIT, X, D], where D
is the wait's only successor, returns [X, WAIT, D].  The code instead raises
UnboundLocalError when the scan reaches X, because line 33 appends the local
`node` that no statement has assigned yet. -/
theorem c4_sink_waits_raises :
    sink_waits [wS, xS, dS] = Except.error SchedError.unboundLocal := by
  decide

/-- C5 counterexample: the claim says a Priority 2 candidate is skipped
exactly when its cost cannot fill more than half the remaining gap.  Here
the candidate's cost 1 is at most half the remaining gap 100 - 0, so the
claim predicts a skip, yet the loop schedules the node (the code's test at
source line 231 skips only when the gap is at most half the node's cost). -/
theorem c5_counterexample :
    tinyNode.cost ≤ (100 - 0) / 2 ∧
    Except.map (fun p => p.1.result.map SNode.name)
        (p2_loop [tinyNode] 100 (initState [tinyNode]) 0 [tinyNode]) =
      Except.ok [tinyNode.name] := by
  exact ⟨by decide, by decide⟩

/-- C5 amended: while accumulated cost is below the previous comm's cost, a
free non-communication Priority 2 candidate is scheduled iff the remaining
gap exceeds half the candidate's own cost (candidates are skipped exactly
when the gap is at most half their cost, not when their cost is at most
half the gap). -/
theorem c5_take_iff (G : List SNode) (cc tc : Int) (n : SNode) (rest : List SNode)
    (st : SchedSt) (names : List Nat)
    (hres : ∀ m ∈ st.result, m.name ≠ n.name)
    (hrest : ∀ m ∈ rest, m.name ≠ n.name)
    (htc : tc < cc) (hk : n.kind ≠ NodeKind.comm)
    (hok : Except.map (fun p => p.1.result.map SNode.name)
        (p2_loop G cc st tc (n :: rest)) = Except.ok names) :
    n.name ∈ names ↔ n.cost / 2 < cc - tc := by
  cases hp : p2_loop G cc st tc (n :: rest) with
  | error e =>
    rw [hp] at hok
    exact Except.noConfusion hok
  | ok p =>
    obtain ⟨st2, tc2⟩ := p
    rw [hp] at hok
    simp only [Except.map] at hok
    have hnames : names = st2.result.map SNode.name := by
      cases hok
      rfl
    subst hnames
    simp only [p2_loop] at hp
    rw [if_neg (not_le.mpr htc), if_neg hk] at hp
    split at hp
    · rename_i hcase
      constructor
      · intro hmem
        rcases List.mem_map.mp hmem with ⟨m, hm, hmn⟩
        rcases p2_loop_names hp n.name (List.mem_map.mpr ⟨m, hm, hmn⟩) with h1 | ⟨m2, hm2, hm2n⟩
        · rcases List.mem_map.mp h1 with ⟨m3, hm3, hm3n⟩
          exact absurd hm3n (hres m3 hm3)
        · exact absurd hm2n (hrest m2 hm2)
      · intro hlt
        omega
    · rename_i hcase
      cases hadd : add_node G st n with
      | error e =>
        rw [hadd] at hp
        exact Except.noConfusion hp
      | ok stA =>
        rw [hadd] at hp
        dsimp only at hp
        constructor
        · intro _
          omega
        · intro _
          have hnA : n ∈ stA.result := by
            rw [add_node_ok_result hadd]
            simp
          exact List.mem_map_of_mem _ ((p2_loop_sublist hp).subset hnA)

/-- C5 witness: with a remaining gap of 100 and a candidate of cost 10, the
amended rule applies: half the cost is below the gap, and the candidate is
indeed scheduled. -/
theorem c5_take_iff_witness :
    ((0 : Int) < 100 ∧ midNode.kind ≠ NodeKind.comm) ∧
    Except.map (fun p => p.1.result.map SNode.name)
        (p2_loop [midNode] 100 (initState [midNode]) 0 [midNode]) =
      Except.ok [midNode.name] ∧
    (midNode.name ∈ [midNode.name] ↔ midNode.cost / 2 < 100 - 0) :=
  ⟨⟨by decide, by decide⟩, by decide,
    c5_take_iff [midNode] 100 0 midNode [] (initState [midNode]) [midNode.name]
      (by decide) (by decide) (by decide) (by decide) (by decide)⟩

/-- C6: whenever more than one communication node is still pending at the
end of the reverse scan of raise_comms — as happens for any input whose
nodes carry no dependencies and which holds at least two comm nodes — the
function fails with the fatal assertion of source line 54 and returns no
sequence. -/
theorem c6_raise_comms_assert (xs : List SNode)
    (hdeps : ∀ n ∈ xs, n.deps = [])
    (h2 : 2 ≤ (xs.filter isComm).length) :
    raise_comms xs = Except.error SchedError.assertFail := by
  unfold raise_comms
  rcases hs : raise_scan xs.reverse [] [] with ⟨nr, cc⟩
  have hdr : ∀ n ∈ xs.reverse, n.deps = [] := by
    intro n hn
    exact hdeps n (List.mem_reverse.mp hn)
  have hcc := raise_scan_pending hdr (by intro c hc; exact absurd hc (List.not_mem_nil c)) hs
  dsimp only
  rw [if_neg]
  rw [hcc]
  simp only [List.nil_append, List.filter_reverse, List.length_reverse]
  omega

/-- C6 witness: two dependency-free communication nodes leave two comms
pending at the end of the scan, and raise_comms fails the assertion. -/
theorem c6_raise_comms_assert_witness :
    ((∀ n ∈ [cA, cB], n.deps = []) ∧ 2 ≤ (([cA, cB]).filter isComm).length) ∧
    raise_comms [cA, cB] = Except.error SchedError.assertFail :=
  ⟨⟨by decide, by decide⟩, c6_raise_comms_assert [cA, cB] (by decide) (by decide)⟩

/-- C7: the claim says a progress stall aborts with a fatal deadlock
failure.  On this cyclic graph (aCyc and bCyc depend on each other and feed
the comm node cCyc) the very first add_all_nodes batch stalls, and the
source then runs breakpoint() and print() and repeats its while loop with
an unchanged state, looping forever instead of aborting; the model returns
the infiniteLoop marker for that non-terminating branch. -/
theorem c7_stall_loops_forever :
    (reorder_computation_for_overlap [aCyc, bCyc, cCyc]).1 =
      Except.error SchedError.infiniteLoop := by
  decide

/-- C8 counterexample: on the comm-free input [pB, pA] the code returns the
input order [pB, pA], which differs from the stable-name-sorted order
[pA, pB] the claim demands. -/
theorem c8_counterexample :
    (reorder_computation_for_overlap [pB, pA]).1 = Except.ok [pB, pA] ∧
    tuple_sorted [pB, pA] = [pA, pB] ∧ [pB, pA] ≠ [pA, pB] := by
  exact ⟨by decide, by decide, by decide⟩

/-- C8 amended: an input with zero communication nodes is returned
unchanged (hence in a topologically valid order exactly when the input
order was), with no side effects. -/
theorem c8_no_comm_identity (G : List SNode) (hc : G.filter isComm = []) :
    reorder_computation_for_overlap G = (Except.ok G, []) := by
  unfold reorder_computation_for_overlap
  rw [hc]

/-- C8 witness: a concrete comm-free input returned unchanged. -/
theorem c8_no_comm_identity_witness :
    ([pA].filter isComm = []) ∧
    reorder_computation_for_overlap [pA] = (Except.ok [pA], []) :=
  ⟨by decide, c8_no_comm_identity [pA] (by decide)⟩

/-- C9: the claim says the scheduler never blocks, suspends or issues I/O.
On any input with a communication node — here a single comm node — the
unconditional breakpoint() of source line 143 fires, suspending the process
into the debugger before any scheduling happens. -/
theorem c9_breakpoint_effect :
    Eff.breakpointHit ∈ (reorder_computation_for_overlap [cSolo]).2 := by
  decide

/-- C10: dumb_reordering first discards every node whose meta lacks
fusion_meta; consequently, whenever the input holds such a node and the
function returns at all, the output is strictly shorter than the input, so
it cannot be a permutation of it — the node is silently dropped. -/
theorem c10_dropped_nodes (nodes : List SNode) (n0 : SNode) (out : List Nat)
    (hmem : n0 ∈ nodes) (hmeta : n0.fusionMeta = none)
    (hok : dumb_reordering nodes = Except.ok out) :
    out.length < nodes.length := by
  unfold dumb_reordering at hok
  dsimp only at hok
  split at hok
  · exact Except.noConfusion hok
  · rename_i nodes2 heqs
    split at hok
    · exact Except.noConfusion hok
    · rename_i nodes3 heqr
      cases hok
      have l1 : (nodes.filter (fun n => n.fusionMeta.isSome)).length < nodes.length :=
        List.length_filter_lt_length_iff_exists.mpr ⟨n0, hmem, by simp [hmeta]⟩
      rw [sink_waits] at heqs
      have l2 := sink_go_ok_length heqs
      have l3 := raise_comms_ok_length heqr
      simp only [List.length_map, List.length_nil] at *
      omega

/-- C10 witness: an input of a wait node with fusion_meta and a node
without it; the survivors are all waits so the pipeline returns, and the
output has one entry against two input nodes. -/
theorem c10_dropped_nodes_witness :
    (noMeta ∈ [wMeta, noMeta] ∧ noMeta.fusionMeta = none ∧
      dumb_reordering [wMeta, noMeta] = Except.ok [11]) ∧
    ([11] : List Nat).length < ([wMeta, noMeta] : List SNode).length :=
  ⟨⟨by decide, by decide, by decide⟩,
    c10_dropped_nodes [wMeta, noMeta] noMeta [11] (by decide) (by decide) (by decide)⟩
